import Mathlib

/-!
Verification of the region-location and RPC-routing subsystem of a Go
HBase client (`client.go`).  Byte strings are modelled as `List Nat`,
Go's `bytes.Compare` as `bytesCompare`, the cznic/b ordered tree as a
key-sorted association list together with the enumerator semantics its
godoc documents (`Seek` positions on the first entry whose key is not
below the sought key, `Prev` yields the current entry and steps back,
a past-the-end `Prev` reports EOF, `Last` yields the final entry).
External collaborators (the protobuf decoder `region.InfoFromCell`, the
injectable connection constructor `newRegion`, the per-call network
outcomes consumed by `Scan` and `sendRPC`) enter as explicit function or
oracle parameters, exactly at the boundaries the source draws.
-/

/-- Byte strings (`[]byte`): lists of byte values. -/
abbrev Bytes := List Nat

/-- Go `bytes.Compare`: byte-lexicographic three-way comparison. -/
def bytesCompare : Bytes → Bytes → Ordering
  | [], [] => Ordering.eq
  | [], _ :: _ => Ordering.lt
  | _ :: _, [] => Ordering.gt
  | a :: as, b :: bs =>
    if a < b then Ordering.lt
    else if b < a then Ordering.gt
    else bytesCompare as bs

theorem bytesCompare_refl (a : Bytes) : bytesCompare a a = Ordering.eq := by
  induction a with
  | nil => rfl
  | cons x xs ih => simp [bytesCompare, ih]

theorem bytesCompare_eq_iff (a b : Bytes) :
    bytesCompare a b = Ordering.eq ↔ a = b := by
  induction a generalizing b with
  | nil => cases b <;> simp [bytesCompare]
  | cons x xs ih =>
    cases b with
    | nil => simp [bytesCompare]
    | cons y ys =>
      by_cases hxy : x = y
      · subst hxy
        simp [bytesCompare, ih]
      · rcases Nat.lt_or_gt_of_ne hxy with h | h
        · simp [bytesCompare, h, hxy]
        · simp [bytesCompare, h, Nat.lt_asymm h, hxy]

theorem bytesCompare_swap (a b : Bytes) :
    bytesCompare a b = (bytesCompare b a).swap := by
  induction a generalizing b with
  | nil => cases b <;> rfl
  | cons x xs ih =>
    cases b with
    | nil => rfl
    | cons y ys =>
      by_cases hxy : x = y
      · subst hxy
        simp [bytesCompare, ih]
      · rcases Nat.lt_or_gt_of_ne hxy with h | h
        · simp [bytesCompare, h, Nat.lt_asymm h, Ordering.swap]
        · simp [bytesCompare, h, Nat.lt_asymm h, Ordering.swap]

theorem bytesCompare_lt_trans {a b c : Bytes} :
    bytesCompare a b = Ordering.lt → bytesCompare b c = Ordering.lt →
    bytesCompare a c = Ordering.lt := by
  induction a generalizing b c with
  | nil =>
    intro h1 h2
    cases b with
    | nil => simp [bytesCompare] at h1
    | cons y ys =>
      cases c with
      | nil => simp [bytesCompare] at h2
      | cons z zs => rfl
  | cons x xs ih =>
    intro h1 h2
    cases b with
    | nil => simp [bytesCompare] at h1
    | cons y ys =>
      cases c with
      | nil => simp [bytesCompare] at h2
      | cons z zs =>
        simp only [bytesCompare] at h1 h2 ⊢
        by_cases hxy : x < y
        · by_cases hyz : y < z
          · simp [Nat.lt_trans hxy hyz]
          · by_cases hzy : z < y
            · simp [hyz, hzy] at h2
            · have hy : y = z := Nat.le_antisymm (Nat.le_of_not_lt hzy) (Nat.le_of_not_lt hyz)
              subst hy
              simp [hxy]
        · by_cases hyx : y < x
          · simp [hxy, hyx] at h1
          · have hx : x = y := Nat.le_antisymm (Nat.le_of_not_lt hyx) (Nat.le_of_not_lt hxy)
            subst hx
            simp only [hxy, if_neg (Nat.lt_irrefl x), if_false, if_neg hxy] at h1
            by_cases hyz : x < z
            · simp [hyz]
            · by_cases hzy : z < x
              · simp [hyz, hzy] at h2
              · have hz : x = z := Nat.le_antisymm (Nat.le_of_not_lt hzy) (Nat.le_of_not_lt hyz)
                subst hz
                simp only [if_neg (Nat.lt_irrefl x)] at h2 ⊢
                exact ih h1 h2

/-- Strict byte-lexicographic "less than", the order the sorted region
index uses. -/
def blt (a b : Bytes) : Bool := decide (bytesCompare a b = Ordering.lt)

theorem blt_eq_true_iff (a b : Bytes) :
    blt a b = true ↔ bytesCompare a b = Ordering.lt := by
  simp [blt]

theorem blt_eq_false_iff (a b : Bytes) :
    blt a b = false ↔ bytesCompare a b ≠ Ordering.lt := by
  simp [blt]

theorem blt_irrefl (a : Bytes) : blt a a = false := by
  simp [blt, bytesCompare_refl]

theorem blt_trans {a b c : Bytes} (h1 : blt a b = true) (h2 : blt b c = true) :
    blt a c = true := by
  rw [blt_eq_true_iff] at h1 h2 ⊢
  exact bytesCompare_lt_trans h1 h2

theorem blt_asymm {a b : Bytes} (h : blt a b = true) : blt b a = false := by
  rw [blt_eq_true_iff] at h
  rw [blt_eq_false_iff]
  intro hba
  have := bytesCompare_swap a b
  rw [h, hba] at this
  simp [Ordering.swap] at this

theorem blt_total {a b : Bytes} (h1 : blt a b = false) (h2 : blt b a = false) :
    a = b := by
  rw [blt_eq_false_iff] at h1 h2
  have hs := bytesCompare_swap a b
  rcases hab : bytesCompare a b with _ | _ | _
  · exact absurd hab h1
  · exact (bytesCompare_eq_iff a b).mp hab
  · rw [hab] at hs
    cases hba : bytesCompare b a <;> rw [hba] at hs <;> simp [Ordering.swap] at hs
    exact absurd hba h2

theorem blt_of_ne_of_not_blt {a b : Bytes} (hne : a ≠ b) (h : blt a b = false) :
    blt b a = true := by
  cases hba : blt b a with
  | true => rfl
  | false => exact absurd (blt_total h hba) hne

/-- One cached region: identity (`*region.Info` pointer, as a numeric id)
plus the fields of `region.Info` the client reads. -/
structure RegionInfo where
  id : Nat
  table : Bytes
  regionName : Bytes
  stopKey : Bytes
deriving DecidableEq

/-- The `b.Tree` of `keyRegionCache`: entries ordered by key.
Modelled from the spec: the tree itself and its comparator
(`region.CompareGeneric`) are outside `client.go`; the spec orders the
key-range index by byte-lexicographic key comparison, so the tree is an
association list whose keys are strictly increasing under `blt`. -/
abbrev RTree := List (Bytes × RegionInfo)

/-- Adjacent-keys sortedness of a tree (strictly increasing under `blt`). -/
def treeSorted : RTree → Bool
  | [] => true
  | _ :: [] => true
  | a :: b :: r => blt a.1 b.1 && treeSorted (b :: r)

theorem treeSorted_cons {e : Bytes × RegionInfo} {rest : RTree}
    (h : treeSorted (e :: rest) = true) :
    treeSorted rest = true ∧ ∀ x ∈ rest, blt e.1 x.1 = true := by
  induction rest generalizing e with
  | nil => exact ⟨rfl, by simp⟩
  | cons f rs ih =>
    rw [treeSorted, Bool.and_eq_true] at h
    obtain ⟨hef, hrest⟩ := h
    obtain ⟨hrs, hall⟩ := ih hrest
    refine ⟨hrest, ?_⟩
    intro x hx
    rcases List.mem_cons.mp hx with rfl | hx
    · exact hef
    · exact blt_trans hef (hall x hx)

/-- Position the `b.Tree` enumerator takes on `Seek`: the index of the
first entry whose key is not below the sought key (possibly one past the
end).  Modelled from the spec: `Seek`/`Prev`/`Last` live in the external
tree library; this is the behaviour their documentation (quoted in the
source) states. -/
def seekPos (key : Bytes) : RTree → Nat
  | [] => 0
  | e :: rest => if blt e.1 key then seekPos key rest + 1 else 0

/-- `keyRegionCache.get`: seek to the search key, take `Prev` (the exact
hit when `Seek` reported one), fall back to `Last` when the seek ran past
the end of a non-empty tree, otherwise step back once more; `none` is the
`(nil, nil)` miss. -/
def krcGet (t : RTree) (key : Bytes) : Option (Bytes × RegionInfo) :=
  match t.get? (seekPos key t) with
  | some e1 =>
      if e1.1 = key then some e1
      else if seekPos key t = 0 then none
      else t.get? (seekPos key t - 1)
  | none => if 0 < t.length then t.getLast? else none

/-- Reference floor lookup: the last entry of a sorted tree whose key is
at or below the search key. -/
def floorList (key : Bytes) : RTree → Option (Bytes × RegionInfo)
  | [] => none
  | e :: rest =>
    if blt key e.1 then none
    else
      match floorList key rest with
      | none => some e
      | some e1 => some e1

theorem getLast?_cons_some (a : Bytes × RegionInfo) (l : RTree) :
    ∃ b, (a :: l).getLast? = some b := by
  induction l generalizing a with
  | nil => exact ⟨a, rfl⟩
  | cons c cs ih =>
    obtain ⟨b, hb⟩ := ih c
    exact ⟨b, by rw [List.getLast?_cons_cons, hb]⟩

theorem krcGet_cons_ge {e : Bytes × RegionInfo} {rest : RTree} {key : Bytes}
    (hge : blt e.1 key = false) :
    krcGet (e :: rest) key = if e.1 = key then some e else none := by
  have hseek : seekPos key (e :: rest) = 0 := by simp [seekPos, hge]
  simp [krcGet, hseek]

theorem krcGet_cons_lt {e : Bytes × RegionInfo} {rest : RTree} {key : Bytes}
    (hlt : blt e.1 key = true) :
    krcGet (e :: rest) key =
      match krcGet rest key with
      | none => some e
      | some kv => some kv := by
  have hseek : seekPos key (e :: rest) = seekPos key rest + 1 := by
    simp [seekPos, hlt]
  cases hget : rest[seekPos key rest]? with
  | some e1 =>
    have hlen : seekPos key rest < rest.length := by
      by_contra hcon
      rw [List.getElem?_eq_none (Nat.le_of_not_lt hcon)] at hget
      cases hget
    by_cases h1 : e1.1 = key
    · simp [krcGet, hseek, hget, h1]
    · by_cases h0 : seekPos key rest = 0
      · rw [h0] at hget
        simp [krcGet, hseek, hget, h1, h0]
      · obtain ⟨k, hk⟩ := Nat.exists_eq_succ_of_ne_zero h0
        obtain ⟨v, hv⟩ : ∃ v, rest[seekPos key rest - 1]? = some v := by
          cases hvv : rest[seekPos key rest - 1]? with
          | some v => exact ⟨v, rfl⟩
          | none =>
            have := List.getElem?_eq_none_iff.mp hvv
            omega
        rw [hk] at hget hv
        simp only [Nat.succ_eq_add_one, Nat.add_sub_cancel] at hget hv
        simp [krcGet, hseek, hget, h1, h0, hk, hv]
  | none =>
    cases rest with
    | nil => simp [krcGet, seekPos, hlt]
    | cons f rs =>
      obtain ⟨b, hb⟩ := getLast?_cons_some f rs
      simp [krcGet, hseek, hget, List.getLast?_cons_cons, hb]

theorem floorList_of_all_above {key : Bytes} :
    ∀ t : RTree, (∀ e ∈ t, blt key e.1 = true) → floorList key t = none := by
  intro t h
  cases t with
  | nil => rfl
  | cons e rest => simp [floorList, h e (List.mem_cons_self e rest)]

theorem krcGet_eq_floorList (key : Bytes) :
    ∀ t : RTree, treeSorted t = true → krcGet t key = floorList key t := by
  intro t
  induction t with
  | nil => intro _; rfl
  | cons e rest ih =>
    intro hs
    obtain ⟨hrest, hall⟩ := treeSorted_cons hs
    by_cases hlt : blt e.1 key = true
    · rw [krcGet_cons_lt hlt, ih hrest]
      have hke : blt key e.1 = false := blt_asymm hlt
      rw [floorList, hke]
      simp only [Bool.false_eq_true, if_false]
    · have hge : blt e.1 key = false := by
        cases h : blt e.1 key
        · rfl
        · exact absurd h hlt
      rw [krcGet_cons_ge hge]
      by_cases heq : e.1 = key
      · have hke : blt key e.1 = false := by rw [heq]; exact blt_irrefl key
        have hrnone : floorList key rest = none := by
          apply floorList_of_all_above
          intro x hx
          have := hall x hx
          rw [heq] at this
          exact this
        rw [floorList, hke]
        simp [heq, hrnone]
      · have hke : blt key e.1 = true := blt_of_ne_of_not_blt heq hge
        rw [floorList, hke]
        simp [heq]

theorem floorList_mem_le {key : Bytes} :
    ∀ t : RTree, ∀ kv, floorList key t = some kv →
      kv ∈ t ∧ blt key kv.1 = false := by
  intro t
  induction t with
  | nil => intro kv h; cases h
  | cons e rest ih =>
    intro kv h
    by_cases hke : blt key e.1 = true
    · rw [floorList, hke] at h
      simp at h
    · have hke' : blt key e.1 = false := by
        cases hx : blt key e.1
        · rfl
        · exact absurd hx hke
      rw [floorList, hke'] at h
      simp only [Bool.false_eq_true, if_false] at h
      cases hfr : floorList key rest with
      | none =>
        rw [hfr] at h
        cases h
        exact ⟨List.mem_cons_self e rest, hke'⟩
      | some e1 =>
        rw [hfr] at h
        cases h
        obtain ⟨hmem, hle⟩ := ih kv hfr
        exact ⟨List.mem_cons_of_mem e hmem, hle⟩

theorem floorList_none_all {key : Bytes} :
    ∀ t : RTree, treeSorted t = true → floorList key t = none →
      ∀ e ∈ t, blt key e.1 = true := by
  intro t hs h e he
  cases t with
  | nil => cases he
  | cons f rest =>
    obtain ⟨hrest, hall⟩ := treeSorted_cons hs
    by_cases hke : blt key f.1 = true
    · rcases List.mem_cons.mp he with rfl | he
      · exact hke
      · exact blt_trans hke (hall e he)
    · exfalso
      have hke' : blt key f.1 = false := by
        cases hx : blt key f.1
        · rfl
        · exact absurd hx hke
      rw [floorList, hke'] at h
      simp only [Bool.false_eq_true, if_false] at h
      cases hfr : floorList key rest <;> rw [hfr] at h <;> cases h

theorem floorList_max {key : Bytes} :
    ∀ t : RTree, treeSorted t = true → ∀ kv, floorList key t = some kv →
      ∀ e ∈ t, blt key e.1 = false → blt kv.1 e.1 = false := by
  intro t
  induction t with
  | nil => intro _ kv h; cases h
  | cons f rest ih =>
    intro hs kv h x hx hxle
    obtain ⟨hrest, hall⟩ := treeSorted_cons hs
    by_cases hke : blt key f.1 = true
    · rw [floorList, hke] at h
      simp at h
    · have hke' : blt key f.1 = false := by
        cases hc : blt key f.1
        · rfl
        · exact absurd hc hke
      rw [floorList, hke'] at h
      simp only [Bool.false_eq_true, if_false] at h
      cases hfr : floorList key rest with
      | none =>
        rw [hfr] at h
        cases h
        rcases List.mem_cons.mp hx with rfl | hx
        · exact blt_irrefl x.1
        · have hup := floorList_none_all rest hrest hfr x hx
          rw [hup] at hxle
          cases hxle
      | some e1 =>
        rw [hfr] at h
        cases h
        rcases List.mem_cons.mp hx with rfl | hx
        · obtain ⟨hmem, _⟩ := floorList_mem_le rest kv hfr
          exact blt_asymm (hall kv hmem)
        · exact ih hrest kv hfr x hx hxle

theorem floorList_all_below {key : Bytes} :
    ∀ t : RTree, t ≠ [] → (∀ e ∈ t, blt e.1 key = true) →
      floorList key t = t.getLast? := by
  intro t
  induction t with
  | nil => intro h; exact absurd rfl h
  | cons e rest ih =>
    intro _ hall
    have hke : blt key e.1 = false := blt_asymm (hall e (List.mem_cons_self e rest))
    rw [floorList, hke]
    simp only [Bool.false_eq_true, if_false]
    cases rest with
    | nil => rfl
    | cons f rs =>
      have h2 : floorList key (f :: rs) = (f :: rs).getLast? :=
        ih (by simp) (fun x hx => hall x (List.mem_cons_of_mem e hx))
      rw [h2, List.getLast?_cons_cons]
      obtain ⟨b, hb⟩ := getLast?_cons_some f rs
      rw [hb]

/-- C1: on a sorted index, `keyRegionCache.get` is a floor lookup: it
returns an entry of the index whose stored key is the greatest one at or
below the search key; when the index is non-empty and the search key
sorts after every stored key it falls back to the last entry; when the
index is empty, or the search key sorts before the first stored key (so
no stored key is at or below it), it returns the `(nil, nil)` miss. -/
theorem krcGet_floor_lookup (t : RTree) (key : Bytes)
    (hs : treeSorted t = true) :
    (krcGet t key = none ↔ ∀ e ∈ t, blt key e.1 = true) ∧
    (∀ rk reg, krcGet t key = some (rk, reg) →
      (rk, reg) ∈ t ∧ blt key rk = false ∧
      ∀ e ∈ t, blt key e.1 = false → blt rk e.1 = false) ∧
    (t ≠ [] → (∀ e ∈ t, blt e.1 key = true) → krcGet t key = t.getLast?) := by
  rw [krcGet_eq_floorList key t hs]
  refine ⟨⟨floorList_none_all t hs, floorList_of_all_above t⟩, ?_, ?_⟩
  · intro rk reg h
    obtain ⟨hmem, hle⟩ := floorList_mem_le t (rk, reg) h
    exact ⟨hmem, hle, floorList_max t hs (rk, reg) h⟩
  · exact floorList_all_below t

/-- Example regions covering the ranges of the spec's floor-lookup test:
start keys "", "d", "m", stop keys "d", "m", "". -/
def exR1 : RegionInfo := RegionInfo.mk 1 [116] [116, 44, 44, 49] [100]

def exR2 : RegionInfo := RegionInfo.mk 2 [116] [116, 44, 100, 44, 50] [109]

def exR3 : RegionInfo := RegionInfo.mk 3 [116] [116, 44, 109, 44, 51] []

def exTree : RTree := [([], exR1), ([100], exR2), ([109], exR3)]

/-- C1 witness: the floor-lookup theorem at the spec's three-entry index
(start keys "", "d", "m") and search key "a". -/
theorem krcGet_floor_lookup_witness :
    treeSorted exTree = true ∧
    ((krcGet exTree [97] = none ↔ ∀ e ∈ exTree, blt [97] e.1 = true) ∧
      (∀ rk reg, krcGet exTree [97] = some (rk, reg) →
        (rk, reg) ∈ exTree ∧ blt [97] rk = false ∧
        ∀ e ∈ exTree, blt [97] e.1 = false → blt rk e.1 = false) ∧
      (exTree ≠ [] → (∀ e ∈ exTree, blt e.1 [97] = true) →
        krcGet exTree [97] = exTree.getLast?)) :=
  ⟨by decide, krcGet_floor_lookup exTree [97] (by decide)⟩

/-- Exact-key lookup in the sorted region index (what a reader of the
`b.Tree` observes for a stored key). -/
def lookupTree : RTree → Bytes → Option RegionInfo
  | [], _ => none
  | e :: rest, k => if e.1 = k then some e.2 else lookupTree rest k

/-- `keyRegionCache.put`: insert at the sorted position, overwriting an
entry with the same key (`b.Tree.Put` with an always-overwrite updater). -/
def krcPut (t : RTree) (key : Bytes) (reg : RegionInfo) : RTree :=
  match t with
  | [] => [(key, reg)]
  | e :: rest =>
    match bytesCompare key e.1 with
    | Ordering.lt => (key, reg) :: e :: rest
    | Ordering.eq => (key, reg) :: rest
    | Ordering.gt => e :: krcPut rest key reg

/-- `regionClientCache`: the `map[*region.Info]*region.Client`, keyed by
pointer identity (`some id`; `none` is the nil pointer), values are
region-client handles as numeric ids.  A `put` prepends, so lookup sees
the latest binding for a key. -/
abbrev ClientMap := List (Option Nat × Nat)

/-- `regionClientCache.get`. -/
def clientsGet : ClientMap → Option Nat → Option Nat
  | [], _ => none
  | e :: rest, k => if e.1 = k then some e.2 else clientsGet rest k

/-- The `Client`'s two shared caches: `clients` (region identity to
region client) and `regions` (the sorted key-range index). -/
structure CacheState where
  clients : ClientMap
  regions : RTree
deriving DecidableEq

/-- First half of `addRegionToCache`: record the region-to-client mapping
in the connection registry (`c.clients.put(reg, client)`). -/
def addRegionStep1 (st : CacheState) (reg : RegionInfo) (client : Nat) :
    CacheState :=
  CacheState.mk ((some reg.id, client) :: st.clients) st.regions

/-- `Client.addRegionToCache`: registry insert first, then the index
insert (`c.regions.put(reg.RegionName, reg)`) that publishes the region. -/
def addRegionToCache (st : CacheState) (reg : RegionInfo) (client : Nat) :
    CacheState :=
  CacheState.mk (addRegionStep1 st reg client).clients
    (krcPut (addRegionStep1 st reg client).regions reg.regionName reg)

/-- A lookup-consistent cache: every region an index key resolves to has
a client entry in the connection registry. -/
def consistentState (st : CacheState) : Prop :=
  ∀ k reg, lookupTree st.regions k = some reg →
    ∃ c, clientsGet st.clients (some reg.id) = some c

theorem lookupTree_krcPut (t : RTree) (key : Bytes) (reg : RegionInfo)
    (k : Bytes) (r : RegionInfo) :
    lookupTree (krcPut t key reg) k = some r →
    r = reg ∨ lookupTree t k = some r := by
  induction t with
  | nil =>
    intro h
    rw [krcPut, lookupTree] at h
    by_cases hk : key = k
    · rw [if_pos hk] at h
      cases h
      exact Or.inl rfl
    · rw [if_neg hk] at h
      cases h
  | cons e rest ih =>
    intro h
    rw [krcPut] at h
    cases hc : bytesCompare key e.1 with
    | lt =>
      rw [hc] at h
      rw [lookupTree] at h
      by_cases hk : key = k
      · rw [if_pos hk] at h
        cases h
        exact Or.inl rfl
      · rw [if_neg hk] at h
        exact Or.inr h
    | eq =>
      rw [hc] at h
      rw [lookupTree] at h
      by_cases hk : key = k
      · rw [if_pos hk] at h
        cases h
        exact Or.inl rfl
      · rw [if_neg hk] at h
        have hke : key = e.1 := (bytesCompare_eq_iff key e.1).mp hc
        rw [lookupTree, if_neg (by rw [← hke]; exact hk)]
        exact Or.inr h
    | gt =>
      rw [hc] at h
      rw [lookupTree] at h
      by_cases hk : e.1 = k
      · rw [if_pos hk] at h
        rw [lookupTree, if_pos hk]
        exact Or.inr h
      · rw [if_neg hk] at h
        rcases ih h with h1 | h1
        · exact Or.inl h1
        · rw [lookupTree, if_neg hk]
          exact Or.inr h1

theorem clientsGet_cons_preserved (m : ClientMap) (x : Option Nat × Nat)
    (k : Option Nat) (c : Nat) (h : clientsGet m k = some c) :
    ∃ d, clientsGet (x :: m) k = some d := by
  rw [clientsGet]
  by_cases hk : x.1 = k
  · exact ⟨x.2, by rw [if_pos hk]⟩
  · exact ⟨c, by rw [if_neg hk]; exact h⟩

/-- C3: `addRegionToCache` inserts the region-to-client entry into the
connection registry strictly before it inserts the region into the
ordered key index: after the first step the index is untouched (the
region is not yet discoverable) while its client entry already exists,
the whole operation is exactly the index insert applied after the
registry insert, and the publication order preserves lookup consistency
at both intermediate and final states — an index hit always finds a
registry entry, so the order can only leave an unreachable registry
entry, never an inconsistent lookup. -/
theorem addRegionToCache_publish_order (st : CacheState) (reg : RegionInfo)
    (client : Nat) :
    (addRegionStep1 st reg client).regions = st.regions ∧
    clientsGet (addRegionStep1 st reg client).clients (some reg.id) =
      some client ∧
    addRegionToCache st reg client =
      CacheState.mk (addRegionStep1 st reg client).clients
        (krcPut st.regions reg.regionName reg) ∧
    (consistentState st →
      consistentState (addRegionStep1 st reg client) ∧
      consistentState (addRegionToCache st reg client)) := by
  refine ⟨rfl, by rw [addRegionStep1, clientsGet, if_pos rfl], rfl, ?_⟩
  intro hcons
  constructor
  · intro k r h
    obtain ⟨c, hc⟩ := hcons k r h
    exact clientsGet_cons_preserved st.clients (some reg.id, client) _ c hc
  · intro k r h
    rcases lookupTree_krcPut st.regions reg.regionName reg k r h with rfl | h1
    · exact ⟨client, by rw [addRegionToCache, addRegionStep1, clientsGet, if_pos rfl]⟩
    · obtain ⟨c, hc⟩ := hcons k r h1
      exact clientsGet_cons_preserved st.clients (some reg.id, client) _ c hc

/-- Name of the meta region, the bytes of "hbase:meta". -/
def metaTableName : Bytes := [104, 98, 97, 115, 101, 58, 109, 101, 116, 97]

/-- The statically-known meta region: table "hbase:meta", region name
"hbase:meta,,1", empty stop key; identity 0. -/
def metaRegionInfo : RegionInfo :=
  RegionInfo.mk 0 metaTableName
    [104, 98, 97, 115, 101, 58, 109, 101, 116, 97, 44, 44, 49] []

/-- `createRegionSearchKey`: `table ++ "," ++ key ++ "," ++ ":"` (44 is
the comma, 58 the colon, the first byte greater than every digit). -/
def createRegionSearchKey (table key : Bytes) : Bytes :=
  table ++ [44] ++ key ++ [44, 58]

/-- `isCacheKeyForTable`, with its memory accesses made explicit: the
loop compares `table[i]` with `cacheKey[i]`, then the final check reads
`cacheKey[len(table)]`; `none` marks an out-of-bounds read (a Go panic),
`some b` the returned boolean. -/
def isCacheKeyForTable : Bytes → Bytes → Option Bool
  | [], [] => none
  | [], b :: _ => some (decide (b = 44))
  | _ :: _, [] => none
  | a :: as, b :: bs => if a ≠ b then some false else isCacheKeyForTable as bs

/-- Outcome of `Client.getRegion`: a cache hit, the `nil` miss, or a Go
panic raised by an out-of-bounds read inside the validation. -/
inductive RegionLookup
  | panic
  | notFound
  | found (reg : RegionInfo)
deriving DecidableEq

/-- `Client.getRegion`: meta requests short-circuit to the static meta
region; otherwise floor-lookup the search key in the index, reject an
entry not keyed for the table, and reject a region whose non-empty stop
key is at or below the requested key. -/
def getRegion (st : CacheState) (table key : Bytes) : RegionLookup :=
  if table = metaTableName then RegionLookup.found metaRegionInfo
  else
    match krcGet st.regions (createRegionSearchKey table key) with
    | none => RegionLookup.notFound
    | some (rkey, reg) =>
      match isCacheKeyForTable table rkey with
      | none => RegionLookup.panic
      | some false => RegionLookup.notFound
      | some true =>
        if reg.stopKey.length ≠ 0 ∧ bytesCompare key reg.stopKey ≠ Ordering.lt
        then RegionLookup.notFound
        else RegionLookup.found reg

theorem isCacheKeyForTable_some_true (t k : Bytes) :
    isCacheKeyForTable t k = some true ↔ ∃ s, k = t ++ 44 :: s := by
  induction t generalizing k with
  | nil =>
    cases k with
    | nil => simp [isCacheKeyForTable]
    | cons b bs =>
      simp only [isCacheKeyForTable, List.nil_append, Option.some.injEq]
      constructor
      · intro h
        have hb : b = 44 := of_decide_eq_true h
        exact ⟨bs, by rw [hb]⟩
      · rintro ⟨s, hs⟩
        cases hs
        exact decide_eq_true rfl
  | cons a as ih =>
    cases k with
    | nil =>
      simp only [isCacheKeyForTable]
      constructor
      · intro h; cases h
      · rintro ⟨s, hs⟩; cases hs
    | cons b bs =>
      by_cases hab : a = b
      · subst hab
        simp [isCacheKeyForTable, ih]
      · rw [isCacheKeyForTable, if_pos hab]
        constructor
        · intro h
          cases h
        · rintro ⟨s, hs⟩
          rw [List.cons_append] at hs
          exact absurd ((List.cons.injEq b bs a (as ++ 44 :: s)).mp hs).1
            (fun hq => hab hq.symm)

/-- C7: a cached region is accepted by `getRegion` only when the index
key matched by the floor lookup begins with exactly the requested
table's bytes followed by the ',' separator byte (44); in particular a
cached key for table "foo" never satisfies a request for table "foobar",
and a cached key for table "foobar" never satisfies a request for
table "foo". -/
theorem getRegion_table_match :
    (∀ t k : Bytes, isCacheKeyForTable t k = some true ↔
      ∃ s, k = t ++ 44 :: s) ∧
    (∀ st table key reg, table ≠ metaTableName →
      getRegion st table key = RegionLookup.found reg →
      ∃ rkey s,
        krcGet st.regions (createRegionSearchKey table key) =
          some (rkey, reg) ∧
        rkey = table ++ 44 :: s) ∧
    (∀ s : Bytes,
      isCacheKeyForTable [102, 111, 111, 98, 97, 114]
        ([102, 111, 111] ++ 44 :: s) = some false) ∧
    (∀ s : Bytes,
      isCacheKeyForTable [102, 111, 111]
        ([102, 111, 111, 98, 97, 114] ++ 44 :: s) = some false) := by
  refine ⟨isCacheKeyForTable_some_true, ?_, fun s => rfl, fun s => rfl⟩
  intro st table key reg hm h
  rw [getRegion, if_neg hm] at h
  cases hkr : krcGet st.regions (createRegionSearchKey table key) with
  | none => rw [hkr] at h; simp at h
  | some kv =>
    obtain ⟨rkey, reg'⟩ := kv
    rw [hkr] at h
    simp only at h
    cases hick : isCacheKeyForTable table rkey with
    | none => rw [hick] at h; simp at h
    | some b =>
      cases b with
      | false => rw [hick] at h; simp at h
      | true =>
        rw [hick] at h
        simp only at h
        by_cases hstop :
            reg'.stopKey.length ≠ 0 ∧
              bytesCompare key reg'.stopKey ≠ Ordering.lt
        · rw [if_pos hstop] at h; simp at h
        · rw [if_neg hstop] at h
          simp only [RegionLookup.found.injEq] at h
          subst h
          obtain ⟨s, hs⟩ := (isCacheKeyForTable_some_true table rkey).mp hick
          exact ⟨rkey, s, rfl, hs⟩

theorem getRegion_found_stop {st : CacheState} {table key : Bytes}
    {reg : RegionInfo}
    (h : getRegion st table key = RegionLookup.found reg) :
    reg.stopKey = [] ∨ bytesCompare key reg.stopKey = Ordering.lt := by
  by_cases hm : table = metaTableName
  · rw [getRegion, if_pos hm] at h
    simp only [RegionLookup.found.injEq] at h
    subst h
    exact Or.inl rfl
  · rw [getRegion, if_neg hm] at h
    cases hkr : krcGet st.regions (createRegionSearchKey table key) with
    | none => rw [hkr] at h; simp at h
    | some kv =>
      obtain ⟨rkey, reg'⟩ := kv
      rw [hkr] at h
      simp only at h
      cases hick : isCacheKeyForTable table rkey with
      | none => rw [hick] at h; simp at h
      | some b =>
        cases b with
        | false => rw [hick] at h; simp at h
        | true =>
          rw [hick] at h
          simp only at h
          by_cases hstop :
              reg'.stopKey.length ≠ 0 ∧
                bytesCompare key reg'.stopKey ≠ Ordering.lt
          · rw [if_pos hstop] at h; simp at h
          · rw [if_neg hstop] at h
            simp only [RegionLookup.found.injEq] at h
            subst h
            rw [not_and_or, not_not, not_not] at hstop
            rcases hstop with h1 | h1
            · exact Or.inl (List.length_eq_zero.mp h1)
            · exact Or.inr h1

/-- Example region for table "foo" with stop key "m", and a cache state
holding only it under the index key "foo,". -/
def exRegM : RegionInfo :=
  RegionInfo.mk 4 [102, 111, 111] [102, 111, 111, 44] [109]

def exStM : CacheState :=
  CacheState.mk [(some 4, 9)] [([102, 111, 111, 44], exRegM)]

/-- Example region for table "foo" with empty stop key (last region of
its table), and a cache state holding only it. -/
def exRegE : RegionInfo :=
  RegionInfo.mk 5 [102, 111, 111] [102, 111, 111, 44] []

def exStE : CacheState :=
  CacheState.mk [(some 5, 9)] [([102, 111, 111, 44], exRegE)]

/-- C8: `getRegion` hands out a cached region only when the region's
stop key is empty or the requested key is strictly below it
byte-lexicographically; under a table-valid floor hit this condition is
exact; concretely, the region with stop key "m" rejects the key "m"
itself and accepts the key "l", and the region with an empty stop key
accepts the key "zzz". -/
theorem getRegion_stop_key :
    (∀ st table key reg, getRegion st table key = RegionLookup.found reg →
      reg.stopKey = [] ∨ bytesCompare key reg.stopKey = Ordering.lt) ∧
    (∀ st table key rkey reg, table ≠ metaTableName →
      krcGet st.regions (createRegionSearchKey table key) =
        some (rkey, reg) →
      isCacheKeyForTable table rkey = some true →
      (getRegion st table key = RegionLookup.found reg ↔
        (reg.stopKey = [] ∨ bytesCompare key reg.stopKey = Ordering.lt))) ∧
    getRegion exStM [102, 111, 111] [109] = RegionLookup.notFound ∧
    getRegion exStM [102, 111, 111] [108] = RegionLookup.found exRegM ∧
    getRegion exStE [102, 111, 111] [122, 122, 122] =
      RegionLookup.found exRegE := by
  refine ⟨fun st table key reg h => getRegion_found_stop h, ?_, by decide,
    by decide, by decide⟩
  intro st table key rkey reg hm hkr hick
  constructor
  · exact fun h => getRegion_found_stop h
  · intro hd
    have hns : ¬(reg.stopKey.length ≠ 0 ∧
        bytesCompare key reg.stopKey ≠ Ordering.lt) := by
      rcases hd with hd | hd
      · rintro ⟨h1, _⟩
        exact h1 (by rw [hd]; rfl)
      · rintro ⟨_, h2⟩
        exact h2 hd
    rw [getRegion, if_neg hm, hkr]
    simp only
    rw [hick]
    simp only
    rw [if_neg hns]

/-- C10: the loop of `isCacheKeyForTable` and its final read of
`cacheKey[len(table)]` stay in bounds whenever the cache key is strictly
longer than the table name; an out-of-bounds read (Go panic) can only
happen when the cache key is no longer than the table name, and for a
cache key equal to the table name the final read is out of bounds rather
than answering "not for this table". -/
theorem isCacheKeyForTable_oob :
    (∀ t k : Bytes, t.length < k.length → isCacheKeyForTable t k ≠ none) ∧
    (∀ t : Bytes, isCacheKeyForTable t t = none) ∧
    (∀ t k : Bytes, isCacheKeyForTable t k = none →
      k.length ≤ t.length) := by
  refine ⟨?_, ?_, ?_⟩
  · intro t
    induction t with
    | nil =>
      intro k hk
      cases k with
      | nil => simp at hk
      | cons b bs => simp [isCacheKeyForTable]
    | cons a as ih =>
      intro k hk
      cases k with
      | nil => simp at hk
      | cons b bs =>
        rw [isCacheKeyForTable]
        by_cases hab : a ≠ b
        · rw [if_pos hab]
          simp
        · rw [if_neg hab]
          exact ih bs (by simpa using hk)
  · intro t
    induction t with
    | nil => rfl
    | cons a as ih => simp [isCacheKeyForTable, ih]
  · intro t
    induction t with
    | nil =>
      intro k h
      cases k with
      | nil => simp
      | cons b bs => rw [isCacheKeyForTable] at h; cases h
    | cons a as ih =>
      intro k h
      cases k with
      | nil => simp
      | cons b bs =>
        rw [isCacheKeyForTable] at h
        by_cases hab : a ≠ b
        · rw [if_pos hab] at h
          cases h
        · rw [if_neg hab] at h
          simpa using ih bs h

/-- One cell of a meta-row response: qualifier and value bytes.  The
protobuf decode of a `regioninfo` cell (`region.InfoFromCell`, living in
the external region package) is injected as a function where needed. -/
structure Cell where
  qualifier : String
  value : Bytes

/-- Go `bytes.IndexByte(value, ':')`: index of the first colon (byte 58),
if any. -/
def idxColon (s : Bytes) : Option Nat := s.findIdx? (fun b => b == 58)

/-- Go `strconv.ParseUint(s, 10, 16)`: non-empty, decimal digits only,
below 2^16; anything else is a parse error. -/
def parseUint16 (s : Bytes) : Option Nat :=
  if s.isEmpty then none
  else if s.all (fun b => decide (48 ≤ b ∧ b ≤ 57)) then
    if s.foldl (fun acc b => acc * 10 + (b - 48)) 0 < 65536 then
      some (s.foldl (fun acc b => acc * 10 + (b - 48)) 0)
    else none
  else none

/-- The cell loop of `discoverRegion`: decode a `regioninfo` cell with
the injected decoder; parse a `server` cell as `host:port` (an empty
value is skipped — "Empty during NSRE" — and the colon must exist and
not be the first byte, the port must parse as a 16-bit unsigned); ignore
any other qualifier; the first failure aborts the walk.  Error codes:
101 for a missing or leading colon, 102 for a bad port. -/
def parseCells (decode : Cell → Except Nat RegionInfo) :
    List Cell → Bytes → Nat → Option RegionInfo →
    Except Nat (Bytes × Nat × Option RegionInfo)
  | [], host, port, reg => Except.ok (host, port, reg)
  | c :: cs, host, port, reg =>
    if c.qualifier = "regioninfo" then
      match decode c with
      | Except.error e => Except.error e
      | Except.ok r => parseCells decode cs host port (some r)
    else if c.qualifier = "server" then
      if c.value.isEmpty then parseCells decode cs host port reg
      else
        match idxColon c.value with
        | none => Except.error 101
        | some i =>
          if i = 0 then Except.error 101
          else
            match parseUint16 (c.value.drop (i + 1)) with
            | none => Except.error 102
            | some p => parseCells decode cs (c.value.take i) p reg
    else parseCells decode cs host port reg

/-- Outcome of `discoverRegion`: success, a returned error, or a Go
panic (nil `*region.Info` dereference). -/
inductive DRes
  | ok (clientId : Nat) (reg : RegionInfo)
  | err (e : Nat)
  | panic
deriving DecidableEq

/-- `Client.discoverRegion`: a nil result row is "table not found"
(error 100); otherwise run the cell loop from empty host, port 0 and nil
region, call the injected connection constructor `nr` (`newRegion`) on
whatever host and port resulted, and on success `addRegionToCache`.  The
triple is (outcome, cache state after the call, whether `newRegion` was
invoked).  When no `regioninfo` cell set the region, `addRegionToCache`
first stores the client under the nil key and then dereferences
`reg.RegionName` — a Go nil-pointer panic, modelled as `DRes.panic` with
the half-updated state. -/
def discoverRegion (decode : Cell → Except Nat RegionInfo)
    (nr : Bytes → Nat → Except Nat Nat) (metaRow : Option (List Cell))
    (st : CacheState) : DRes × CacheState × Bool :=
  match metaRow with
  | none => (DRes.err 100, st, false)
  | some cells =>
    match parseCells decode cells [] 0 none with
    | Except.error e => (DRes.err e, st, false)
    | Except.ok (host, port, regOpt) =>
      match nr host port with
      | Except.error e => (DRes.err e, st, true)
      | Except.ok cid =>
        match regOpt with
        | none =>
          (DRes.panic, CacheState.mk ((none, cid) :: st.clients) st.regions,
            true)
        | some reg => (DRes.ok cid reg, addRegionToCache st reg cid, true)

/-- Example region decoded from a `regioninfo` cell ("foo", start "a",
last region). -/
def exReg : RegionInfo :=
  RegionInfo.mk 1 [102, 111, 111] [102, 111, 111, 44, 97] []

/-- C4: a meta row whose `server` cell carries an empty value (region
mid-reassignment) does not fail the resolution attempt: the cell is
skipped, `newRegion` is still invoked — with empty host and port 0, as
the discriminating constructor here proves — and since construction
succeeds the region is cached.  The resolution returns success, not an
error. -/
theorem discoverRegion_empty_server :
    discoverRegion (fun _ => Except.ok exReg)
      (fun h p =>
        if h.isEmpty && p == 0 then Except.ok 5 else Except.error 9)
      (some [Cell.mk "regioninfo" [1], Cell.mk "server" []])
      (CacheState.mk [] []) =
    (DRes.ok 5 exReg,
      CacheState.mk [(some 1, 5)] [([102, 111, 111, 44, 97], exReg)],
      true) := by decide

/-- C5: a meta row with a well-formed `server` cell ("h:1") but no
`regioninfo` cell does not produce a resolution error: the connection is
constructed, the client entry is stored under the nil region key, and
the subsequent `reg.RegionName` read is a nil-pointer dereference — a
panic, with the registry already mutated. -/
theorem discoverRegion_missing_regioninfo :
    discoverRegion (fun _ => Except.error 7) (fun _ _ => Except.ok 2)
      (some [Cell.mk "server" [104, 58, 49]]) (CacheState.mk [] []) =
    (DRes.panic, CacheState.mk [(none, 2)] [], true) := by decide

/-- One scan response: the returned rows (as opaque row ids) and the
scanner id (`ScanResponse.ScannerId`). -/
structure ScanResp where
  results : List Nat
  scannerId : Nat
deriving DecidableEq

/-- What one `sendRPC` call inside `Scan` produced: `stamped` is the
region stop key `queueRPC` assigned to the rpc (`none` when queueing
failed before `SetRegion`), `result` the delivered message or error. -/
structure ScanOutcome where
  stamped : Option Bytes
  result : Except Nat ScanResp

/-- The calls `Scan` issues, in order: open a scanner for a row range,
fetch the next batch by scanner id, close a scanner by id. -/
inductive ScanCall
  | openScan (startRow stopRow : Bytes)
  | nextBatch (sid : Nat)
  | closeScanner (sid : Nat)
deriving DecidableEq

/-- Result of a whole scan: the accumulated rows, an error, or `stuck`
when the run needs more environment responses than were supplied. -/
inductive ScanResult
  | ok (rows : List Nat)
  | err (e : Nat)
  | stuck
deriving DecidableEq

/-- Control position inside `Scan`'s loop: about to open a region's
scanner, paging after a non-empty batch, or closing a scanner. -/
inductive ScanMode
  | opening (start : Bytes)
  | paging (resp : ScanResp)
  | closing (sid : Nat)

/-- The call a given mode issues next. -/
def modeCall (stopRow : Bytes) : ScanMode → ScanCall
  | ScanMode.opening start => ScanCall.openScan start stopRow
  | ScanMode.paging resp => ScanCall.nextBatch resp.scannerId
  | ScanMode.closing sid => ScanCall.closeScanner sid

/-- The continuation test after closing a region's scanner, line for
line: stop when the region's stop key is empty, or when `stopRow` is
non-empty and `bytes.Compare(stopRow, regionStop) <= 0`. -/
def scanDone (stopRow regionStop : Bytes) : Bool :=
  regionStop.length == 0 ||
    (stopRow.length != 0 && bytesCompare stopRow regionStop != Ordering.gt)

/-- `Client.Scan` against a list of per-call outcomes, returning the
trace of issued calls and the final result.  Opening: an error from
`sendRPC` aborts; a response's rows are appended and an empty batch
moves straight to closing, else to paging.  Paging: same.  Closing: the
close call's result is never consulted — the source checks `err` before
the close `sendRPC` instead of after it — only the close rpc's stamped
region stop key feeds the continuation test; on continuation the next
region opens at that stop key with the same `stopRow`. -/
def scanRun (stopRow : Bytes) :
    ScanMode → List Nat → List ScanOutcome → List ScanCall × ScanResult
  | mode, _, [] => ([modeCall stopRow mode], ScanResult.stuck)
  | mode, acc, o :: rest =>
    match mode with
    | ScanMode.opening start =>
      match o.result with
      | Except.error e => ([ScanCall.openScan start stopRow], ScanResult.err e)
      | Except.ok resp =>
        let next := if resp.results.isEmpty then ScanMode.closing resp.scannerId
          else ScanMode.paging resp
        let out := scanRun stopRow next (acc ++ resp.results) rest
        (ScanCall.openScan start stopRow :: out.1, out.2)
    | ScanMode.paging prev =>
      match o.result with
      | Except.error e =>
        ([ScanCall.nextBatch prev.scannerId], ScanResult.err e)
      | Except.ok resp =>
        let next := if resp.results.isEmpty then ScanMode.closing resp.scannerId
          else ScanMode.paging resp
        let out := scanRun stopRow next (acc ++ resp.results) rest
        (ScanCall.nextBatch prev.scannerId :: out.1, out.2)
    | ScanMode.closing sid =>
      if scanDone stopRow (o.stamped.getD []) then
        ([ScanCall.closeScanner sid], ScanResult.ok acc)
      else
        let out :=
          scanRun stopRow (ScanMode.opening (o.stamped.getD [])) acc rest
        (ScanCall.closeScanner sid :: out.1, out.2)

/-- `Client.Scan`'s entry: open the first region at `startRow`. -/
def clientScan (oracle : List ScanOutcome) (startRow stopRow : Bytes) :
    List ScanCall × ScanResult :=
  scanRun stopRow (ScanMode.opening startRow) [] oracle

theorem scanRun_opening_head (stopRow start : Bytes) (acc : List Nat)
    (oracle : List ScanOutcome) :
    (scanRun stopRow (ScanMode.opening start) acc oracle).1.head? =
      some (ScanCall.openScan start stopRow) := by
  cases oracle with
  | nil => rfl
  | cons o rest =>
    rw [scanRun]
    cases o.result <;> rfl

/-- C2: the decision taken right after a region's close-scanner call.
With `regionStop` the stop key stamped on the close rpc: the scan
returns the accumulated results exactly when `scanDone` holds, which is
exactly "the stop key is empty, or `stopRow` is non-empty and at or
below the stop key byte-lexicographically"; otherwise the run continues
and its very next issued call opens the next region at `regionStop` with
the same `stopRow`. -/
theorem scanRun_close_decision (stopRow : Bytes) (sid : Nat)
    (acc : List Nat) (o : ScanOutcome) (rest : List ScanOutcome) :
    (scanRun stopRow (ScanMode.closing sid) acc (o :: rest) =
      if scanDone stopRow (o.stamped.getD []) then
        ([ScanCall.closeScanner sid], ScanResult.ok acc)
      else
        (ScanCall.closeScanner sid ::
          (scanRun stopRow (ScanMode.opening (o.stamped.getD [])) acc rest).1,
          (scanRun stopRow (ScanMode.opening (o.stamped.getD []))
            acc rest).2)) ∧
    ((scanRun stopRow (ScanMode.opening (o.stamped.getD []))
        acc rest).1.head? =
      some (ScanCall.openScan (o.stamped.getD []) stopRow)) ∧
    (scanDone stopRow (o.stamped.getD []) = true ↔
      (o.stamped.getD [] = [] ∨
        (stopRow ≠ [] ∧
          bytesCompare stopRow (o.stamped.getD []) ≠ Ordering.gt))) := by
  refine ⟨?_, scanRun_opening_head stopRow (o.stamped.getD []) acc rest, ?_⟩
  · rw [scanRun]
  · rw [scanDone]
    have hbne : ∀ x y : Ordering, (x != y) = true ↔ x ≠ y := by
      intro x y
      cases x <;> cases y <;> decide
    simp [List.length_eq_zero, hbne]

/-- C6: a one-region scan whose close-scanner call fails.  The oracle:
the open call returns row 5 with scanner id 7 (region stop "d"), the
next-batch call returns an empty batch, and the close call fails with
error 42 (its rpc stamped with the region's empty-stop successor state).
The scan still returns `ok [5]` — the close error is swallowed, because
the source checks `err` before issuing the close call instead of after
it — instead of aborting with error 42. -/
theorem clientScan_swallows_close_error :
    clientScan
      [ScanOutcome.mk (some [100]) (Except.ok (ScanResp.mk [5] 7)),
        ScanOutcome.mk (some [100]) (Except.ok (ScanResp.mk [] 7)),
        ScanOutcome.mk (some []) (Except.error 42)]
      [] [] =
    ([ScanCall.openScan [] [], ScanCall.nextBatch 7,
        ScanCall.closeScanner 7],
      ScanResult.ok [5]) := rfl

/-- An error value as Go sees it: the distinguished `ErrDeadline`
sentinel (`errors.New("deadline exceeded")`) or any other error. -/
inductive GoErr
  | errDeadline
  | err (code : Nat)
deriving DecidableEq

/-- What arrives on the rpc's result channel: `res.Msg` and `res.Error`. -/
structure RPCResult where
  msg : Option Nat
  error : Option GoErr
deriving DecidableEq

/-- Which of `sendRPC`'s two select arms fires first: the result channel
delivers, or the call's context is done (deadline or cancellation). -/
inductive SelectOutcome
  | result (r : RPCResult)
  | ctxDone
deriving DecidableEq

/-- `Client.sendRPC`: `queueRPC`'s outcome is `q` (`some e` = it failed
with error e); on queue failure that error returns at once, otherwise
the call waits on the result channel and the context simultaneously and
the first arm to fire decides the answer. -/
def sendRPC (q : Option GoErr) (sel : SelectOutcome) :
    Option Nat × Option GoErr :=
  match q with
  | some e => (none, some e)
  | none =>
    match sel with
    | SelectOutcome.result r => (r.msg, r.error)
    | SelectOutcome.ctxDone => (none, some GoErr.errDeadline)

/-- C9: when `queueRPC` fails, `sendRPC` returns that error no matter
what the channels would later do (it never reaches the select); when the
result channel fires first it returns the delivered message and error
verbatim; when the context's done signal fires first — as for a call
whose deadline already expired against a connection that never responds
— it returns the distinguished `ErrDeadline` sentinel, which no other
error value equals. -/
theorem sendRPC_select_semantics :
    (∀ (e : GoErr) (sel : SelectOutcome), sendRPC (some e) sel =
      (none, some e)) ∧
    (∀ r : RPCResult, sendRPC none (SelectOutcome.result r) =
      (r.msg, r.error)) ∧
    (sendRPC none SelectOutcome.ctxDone =
      (none, some GoErr.errDeadline)) ∧
    (∀ c : Nat, (GoErr.errDeadline == GoErr.err c) = false) :=
  ⟨fun _ _ => rfl, fun _ => rfl, rfl, fun _ => rfl⟩
